import Mathlib

/-!
Shallow embedding of the rtl-sdr-fft repository (src/fft.hpp and
src/rtl-sdr-fft.cpp) and proofs about it.

The repository's helper headers `fixq15.hpp`, `complex.hpp`, `ilog2.hpp`,
`power_of_two.hpp`, `pipeline.hpp` and `ringbuffer.hpp` are not part of the
given sources; where their behaviour matters it is modelled from the spec and
the corresponding definitions say so in their doc comments.

Machine integers are modelled as unbounded `Int`/`Nat`; the C++ programme's
values (Q15 samples of magnitude up to 2^15, sums of at most 8192 of them,
and intermediate products held in a wider type, per the spec) stay far below
the 32/64-bit bounds, so no wrap-around is modelled.
-/

namespace RtlSdrFft

/-- Modelled from the spec: the `Q15` fixed-point scale used by the missing
`fixq15.hpp` header. Per the spec glossary, a Q15 value is an integer
representing `value / 2 ^ 15`, so the scale constant is `2 ^ 15 = 32768`. -/
def Q15 : ℤ := 32768

/-- Modelled from the spec: multiplication of two Q15 scalars (missing
`fixq15.hpp`). Per spec section 4.1 the product is "computed in a wider
intermediate type then shifted right by log2(S)"; the C++ arithmetic right
shift on a two's-complement integer is floor division by `2 ^ 15`. -/
def fixmul (a b : ℤ) : ℤ := Int.fdiv (a * b) Q15

/-- A `complex<fixq15>` value (`iq_t` in `rtl-sdr-fft.cpp`): real and
imaginary Q15 parts. -/
abbrev Cq : Type := ℤ × ℤ

/-- Modelled from the spec: complex addition of the missing `complex.hpp`
(componentwise, exact, no scale change per spec section 4.1). -/
def cadd (x y : Cq) : Cq := (x.1 + y.1, x.2 + y.2)

/-- Modelled from the spec: complex subtraction (componentwise, exact). -/
def csub (x y : Cq) : Cq := (x.1 - y.1, x.2 - y.2)

/-- Modelled from the spec: complex multiplication of the missing
`complex.hpp`, with the per-multiply Q15 rescale applied to each scalar
product (spec section 4.1). -/
def cmul (x y : Cq) : Cq :=
  (fixmul x.1 y.1 - fixmul x.2 y.2, fixmul x.1 y.2 + fixmul x.2 y.1)

/-- In-place `std::swap(iq[i], iq[j])` on a buffer modelled as a list.
Out-of-range indices leave the list unchanged (the C++ code never produces
them for buffers of the stated length). -/
def listSwap {α : Type _} (l : List α) (i j : ℕ) : List α :=
  match l[i]?, l[j]? with
  | some x, some y => (l.set i y).set j x
  | _, _ => l

/-- The inner do-while loop of `fft_reorder_samples` (src/fft.hpp lines
56-59), written with a structural fuel argument so that it computes by
kernel reduction: starting from `l`, halve `l` and keep halving while
`m + l >= N`. The `fuel` bound is never reached when started with
`fuel = l`, because `l` strictly decreases and the loop stops at `l / 2 = 0`
anyway; the `l / 2 ≠ 0` guard only stops the (for `m < N` unreachable)
divergence the C++ loop would have for `m ≥ N`: for every `m < N` the C++
loop exits at `l = 0` at the latest, exactly as here. -/
def computeLFuel (m N : ℕ) : ℕ → ℕ → ℕ
  | 0, l => l / 2
  | fuel + 1, l =>
    if l / 2 ≠ 0 ∧ m + l / 2 ≥ N then computeLFuel m N fuel (l / 2) else l / 2

/-- The value of `l` on exit of the halving loop, starting from `l`. -/
def computeL (m N l : ℕ) : ℕ := computeLFuel m N l l

/-- One update of the running index `m` in `fft_reorder_samples`
(src/fft.hpp line 60): `m = (m & (l - 1)) + l` with `l` from the halving
loop. -/
def fft_next_m (N m : ℕ) : ℕ :=
  let l := computeL m N N
  (m &&& (l - 1)) + l

/-- The main loop of `fft_reorder_samples` (src/fft.hpp lines 55-64),
carrying the loop counter `n`, the running index `m` and the buffer. The
first (structural) argument counts the remaining iterations, which is
`N - n` for the loop `for (n = ...; n < N; ++n)`. -/
def fft_reorder_loop {α : Type _} (N : ℕ) : ℕ → ℕ → ℕ → List α → List α
  | 0, _, _, buf => buf
  | count + 1, n, m, buf =>
    let m2 := fft_next_m N m
    fft_reorder_loop N count (n + 1) m2 (if m2 ≤ n then buf else listSwap buf n m2)

/-- `fft_reorder_samples` (src/fft.hpp lines 51-65): decimation-in-time
re-ordering of the samples, in place (the loop runs for
`n = 1, ..., N - 1`, i.e. `N - 1` iterations). -/
def fft_reorder_samples {α : Type _} (iq : List α) (N : ℕ) : List α :=
  fft_reorder_loop N (N - 1) 1 0 iq

/-- The sequence of `(n, m)` swap index pairs actually executed by
`fft_reorder_samples` for a given `N` (the indices do not depend on the
buffer contents, only on `N`). -/
def fft_reorder_swaps_loop (N : ℕ) : ℕ → ℕ → ℕ → List (ℕ × ℕ)
  | 0, _, _ => []
  | count + 1, n, m =>
    let m2 := fft_next_m N m
    (if m2 ≤ n then [] else [(n, m2)]) ++ fft_reorder_swaps_loop N count (n + 1) m2

/-- The swap index pairs executed by `fft_reorder_samples iq N`. -/
def fft_reorder_swaps (N : ℕ) : List (ℕ × ℕ) := fft_reorder_swaps_loop N (N - 1) 1 0

/-- `fft_reorder_coefficients` (src/fft.hpp lines 67-73): swap the first and
second half of the buffer, in place. -/
def fft_reorder_coefficients {α : Type _} (iq : List α) (N : ℕ) : List α :=
  (List.range (N / 2)).foldl (fun b n => listSwap b n (n + N / 2)) iq

/-- Modelled from the spec: `ilog2` of the missing `ilog2.hpp` header, the
base-2 integer logarithm (exact on the powers of two the programme uses),
written with a structural fuel argument so that it computes by kernel
reduction; `ilog2_eq_log2` shows it agrees with `Nat.log2`. -/
def ilog2Fuel : ℕ → ℕ → ℕ
  | 0, _ => 0
  | fuel + 1, n => if n ≥ 2 then ilog2Fuel fuel (n / 2) + 1 else 0

/-- The base-2 integer logarithm (`ilog2` of the missing `ilog2.hpp`). -/
def ilog2 (N : ℕ) : ℕ := ilog2Fuel N N

/-- One butterfly of `fft` (src/fft.hpp lines 87-91): read `u = iq[r+j]` and
`v = iq[r+j+mh] * e[j]`, then store `u + v` at `r+j` and `u - v` at
`r+j+mh`. -/
def fft_butterfly (e : List Cq) (mh : ℕ) (buf : List Cq) (r j : ℕ) : List Cq :=
  let u := buf.getD (r + j) (0, 0)
  let v := cmul (buf.getD (r + j + mh) (0, 0)) (e.getD j (0, 0))
  (buf.set (r + j) (cadd u v)).set (r + j + mh) (csub u v)

/-- One `log2_n` stage of `fft` (src/fft.hpp lines 82-94) with half-width
`mh`: for every offset `j` in `[0, mh)` and every block start
`r = 0, m, 2m, ...` below `N` (with `m = 2 * mh`), perform the butterfly.
The `r` loop runs `⌈N / m⌉` times, matching `for (r = 0; r < N; r += m)`. -/
def fft_stage_pass (e : List Cq) (N mh : ℕ) (buf : List Cq) : List Cq :=
  (List.range mh).foldl
    (fun b j =>
      (List.range ((N + (2 * mh - 1)) / (2 * mh))).foldl
        (fun b2 i => fft_butterfly e mh b2 (i * (2 * mh)) j) b)
    buf

/-- `fft` (src/fft.hpp lines 76-97): bit-reversal reorder, `ilog2 N`
butterfly stages (stage `log2_n` uses half-width `mh = 2 ^ log2_n` and
twiddle `e[j]`), then the final half-swap of the coefficients. -/
def fft (iq e : List Cq) (N : ℕ) : List Cq :=
  let buf := fft_reorder_samples iq N
  let buf2 := (List.range (ilog2 N)).foldl
    (fun b log2_n => fft_stage_pass e N (2 ^ log2_n) b) buf
  fft_reorder_coefficients buf2 N

/-- `generate_e_2pi_i` (src/rtl-sdr-fft.cpp lines 117-124): entry `i` of the
twiddle table is `(round(Q15 * cos x), round(Q15 * sin x))` with
`x = 2 * pi * i / N` (a positive exponent). The C `double` trigonometry is
modelled by exact real arithmetic. -/
noncomputable def generate_e_2pi_i (N : ℕ) : List Cq :=
  (List.range N).map fun i : ℕ =>
    ((round ((Q15 : ℝ) * Real.cos (2 * Real.pi * (i : ℝ) / (N : ℝ))) : ℤ),
     (round ((Q15 : ℝ) * Real.sin (2 * Real.pi * (i : ℝ) / (N : ℝ))) : ℤ))

/-- Componentwise sum of a buffer, as accumulated by the `sum += iqbuf[n]`
loop of `remove_dc` (src/rtl-sdr-fft.cpp lines 380-383). -/
def csum (l : List Cq) : Cq := l.foldl cadd (0, 0)

/-- The `average` computed by `remove_dc` (src/rtl-sdr-fft.cpp line 385).
Modelled from the spec for the missing `fixq15.hpp` division: the raw
quotient of `sum / fixq15(N * Q15)` is `(raw * Q15) / (N * Q15)` with C++
truncating division, which cancels to `raw.tdiv N`. -/
def dc_average (l : List Cq) (N : ℕ) : Cq :=
  ((csum (l.take N)).1.tdiv N, (csum (l.take N)).2.tdiv N)

/-- `remove_dc` (src/rtl-sdr-fft.cpp lines 378-394): subtract the average
from the first `N` samples, unless the average is exactly zero, in which
case the buffer is returned unchanged. -/
def remove_dc (iqbuf : List Cq) (N : ℕ) : List Cq :=
  let average := dc_average iqbuf N
  if average = (0, 0) then iqbuf
  else (iqbuf.take N).map (fun s => csub s average) ++ iqbuf.drop N

/-- `print_fft` (src/rtl-sdr-fft.cpp lines 396-410). Its entire body is
disabled by the preprocessor (the `#if 0` on line 398 spans every statement
up to the `#endif` on line 409), so after preprocessing the function writes
nothing to the file: the list of emitted records is always empty. A record
would be the tuple printed per bin: index, frequency, real, imaginary,
norm. -/
def print_fft (fc bw : ℕ) (iqbuf : List Cq) (N : ℕ) : List (ℕ × ℕ × ℤ × ℤ × ℤ) :=
  []

/-- Modelled from the spec: the result of `iringbuffer::read` of the missing
`ringbuffer.hpp` (spec section 4.2): the oldest buffer if one is present,
`empty` if the queue is empty but open, `closed` if it is empty and
closed. -/
inductive rb_read_result (β : Type) : Type
  | ok (b : β)
  | empty
  | closed
deriving DecidableEq

/-- Modelled from the spec: the numeric status code `irb->read` stores in
`read_status` (src/rtl-sdr-fft.cpp line 110): `1` exactly when a buffer was
returned, other values for `empty` and `closed`. -/
def rb_read_status {β : Type} : rb_read_result β → ℤ
  | .ok _ => 1
  | .empty => 0
  | .closed => -1

/-- `get_iq_buffer_uptr` (src/rtl-sdr-fft.cpp lines 106-115): return the
buffer when `read_status` is `1`, and a null pointer (here `none`) for every
other status, i.e. also when the queue was merely empty. -/
def get_iq_buffer_uptr {β : Type} (r : rb_read_result β) : Option β :=
  if rb_read_status r ≠ 1 then none
  else match r with
    | .ok b => some b
    | .empty => none
    | .closed => none

/-- The `fft_stage` lambda of `main` (src/rtl-sdr-fft.cpp lines 310-327):
try to take one buffer from the input queue; if `get_iq_buffer_uptr` yields
null, return `false`; otherwise remove the DC offset, run the FFT in place,
hand the result to `print_fft`, and return `true`. The returned pair is the
continue flag and the records written to the output file. -/
def fft_stage (fft_size : ℕ) (e : List Cq) (fc bw : ℕ)
    (r : rb_read_result (List Cq)) : Bool × List (ℕ × ℕ × ℤ × ℤ × ℤ) :=
  match get_iq_buffer_uptr r with
  | none => (false, [])
  | some buf =>
      let buf2 := remove_dc buf fft_size
      let buf3 := fft buf2 e fft_size
      (true, print_fft fc bw buf3 fft_size)

/-- `IDLE_LOOPS_NUM` (src/rtl-sdr-fft.cpp line 50). -/
def IDLE_LOOPS_NUM : ℕ := 1

/-- One converted sample sub-buffer of the producer (src/rtl-sdr-fft.cpp
lines 288-296): sample `i` of the chunk at byte offset `offset` is the pair
`((src[2i] - 127) * 256, (src[2i+1] - 127) * 256)`. -/
def iqbuf_chunk (raw : List ℕ) (fft_size offset : ℕ) : List Cq :=
  (List.range fft_size).map fun i =>
    (((raw.getD (offset + 2 * i) 0 : ℤ) - 127) * 256,
     ((raw.getD (offset + 2 * i + 1) 0 : ℤ) - 127) * 256)

/-- The text lines the producer writes to the output file for one chunk
(src/rtl-sdr-fft.cpp line 297): for each sample, the pair of raw integers
`(src[2i] - 127, src[2i+1] - 127)` rendered as one line. -/
def chunk_lines (raw : List ℕ) (fft_size offset : ℕ) : List (ℤ × ℤ) :=
  (List.range fft_size).map fun i =>
    ((raw.getD (offset + 2 * i) 0 : ℤ) - 127,
     (raw.getD (offset + 2 * i + 1) 0 : ℤ) - 127)

/-- The byte offsets of the chunk loop `for (offset = 0; offset <
sizeof(iqbuf_u8); offset += fft_size * 2)` (src/rtl-sdr-fft.cpp line 287),
with `raw` the contents of the raw byte buffer (of size `IQBUF_SIZE` in the
programme). -/
def producer_offsets (rawLen fft_size : ℕ) : List ℕ :=
  (List.range ((rawLen + (fft_size * 2 - 1)) / (fft_size * 2))).map
    (· * (fft_size * 2))

/-- The `producer` lambda of `main` (src/rtl-sdr-fft.cpp lines 263-308).
Inputs: the raw bytes the device delivered, the read status and byte count
reported by `rtlsdr_read_sync`, and the current value of the static
`counter`. Output: the continue flag, the sample buffers handed to
`orb->write`, and the time-domain text lines written to the output file.
A hard read failure returns `false`; a short read and the initial idle
iterations return `true` without producing anything. (`orb->write` failures
are logged and drop the buffer but change neither the emitted-line list nor
the return value, so they are not modelled.) -/
def producer (raw : List ℕ) (fft_size : ℕ) (read_status : ℤ) (n_read : ℕ)
    (counter : ℕ) : Bool × List (List Cq) × List (ℤ × ℤ) :=
  if read_status ≠ 0 then (false, [], [])
  else if n_read ≠ raw.length then (true, [], [])
  else if counter < IDLE_LOOPS_NUM then (true, [], [])
  else
    (true,
     (producer_offsets raw.length fft_size).map (iqbuf_chunk raw fft_size),
     ((producer_offsets raw.length fft_size).map (chunk_lines raw fft_size)).flatten)

/-- `FFT_SIZE_MAX` (src/rtl-sdr-fft.cpp line 48). -/
def FFT_SIZE_MAX : ℤ := 8 * 1024

/-- Reversal of the lowest `k` bits of `n`: the mathematical bit-reversal
permutation of `[0, 2^k)` used to specify what `fft_reorder_samples`
computes. -/
def revBits : ℕ → ℕ → ℕ
  | 0, _ => 0
  | k + 1, n => n % 2 * 2 ^ k + revBits k (n / 2)

/-- The concrete value of the twiddle table `generate_e_2pi_i` produces for
`N = 8` (proved equal to it in `generate_e_2pi_i_eight`): the Q15 roundings
of `e^(2*pi*i*k/8)` for `k = 0, ..., 7`, with `round(32768 * sqrt 2 / 2) =
23170`. -/
def twiddle_table_8 : List Cq :=
  [(32768, 0), (23170, 23170), (0, 32768), (-23170, 23170),
   (-32768, 0), (-23170, -23170), (0, -32768), (23170, -23170)]

/-- An 8-sample test buffer: the unit impulse (amplitude `1.0`, i.e. raw
value `Q15 = 32768`) at index 3. -/
def impulse8_at_3 : List Cq :=
  [(0, 0), (0, 0), (0, 0), (32768, 0), (0, 0), (0, 0), (0, 0), (0, 0)]

/-- The reference discrete Fourier transform the spec ascribes to `fft`
(and the claim-side definition `fft` is compared against): interpret the
Q15 buffer as complex samples `x_n / Q15`, take
`X_k = sum_n x_n * e^(-2*pi*i*k*n/N)`, round each bin back to Q15, and list
the bins in ascending-frequency order, i.e. output slot `i` holds bin
`(i + N/2) mod N` (the half-swap that puts negative frequencies first). -/
noncomputable def dft_bin (x : List Cq) (N k : ℕ) : ℂ :=
  ∑ n ∈ Finset.range N,
    (((x.getD n (0, 0)).1 : ℂ) / (Q15 : ℂ) +
      ((x.getD n (0, 0)).2 : ℂ) / (Q15 : ℂ) * Complex.I) *
      Complex.exp (((-(2 * Real.pi * (k : ℝ) * (n : ℝ) / (N : ℝ)) : ℝ) : ℂ) * Complex.I)

/-- The bins of `dft_bin` in ascending-frequency order: output slot `i`
holds bin `(i + N/2) mod N`, rounded back to Q15 componentwise. -/
noncomputable def dft_ascending (x : List Cq) (N : ℕ) : List Cq :=
  (List.range N).map fun i : ℕ =>
    ((round ((Q15 : ℝ) * (dft_bin x N ((i + N / 2) % N)).re) : ℤ),
     (round ((Q15 : ℝ) * (dft_bin x N ((i + N / 2) % N)).im) : ℤ))

/-- The transform-size validation of `main` (src/rtl-sdr-fft.cpp lines
202-211): reject when `fft_size & (fft_size - 1)` is nonzero, then reject
when `fft_size > FFT_SIZE_MAX`. Both rejections call `exit` before the
pipeline is constructed on line 330, so the pipeline is constructed and
started exactly when this returns `true` (and the device setup in between
succeeds). -/
def main_accepts_fft_size (fft_size : ℤ) : Bool :=
  if Int.land fft_size (fft_size - 1) ≠ 0 then false
  else if fft_size > FFT_SIZE_MAX then false
  else true

end RtlSdrFft

namespace RtlSdrFft

/-! ## Helper lemmas -/

theorem foldl_cadd_eq (l : List Cq) (z : Cq) :
    l.foldl cadd z = (z.1 + (l.map Prod.fst).sum, z.2 + (l.map Prod.snd).sum) := by
  induction l generalizing z with
  | nil => simp
  | cons x xs ih =>
      simp only [List.foldl_cons, ih, cadd, List.map_cons, List.sum_cons, Prod.mk.injEq]
      constructor <;> ring

theorem csum_eq (l : List Cq) :
    csum l = ((l.map Prod.fst).sum, (l.map Prod.snd).sum) := by
  simp [csum, foldl_cadd_eq]

theorem sum_map_csub_fst (l : List Cq) (a : Cq) :
    ((l.map (fun s => csub s a)).map Prod.fst).sum
      = (l.map Prod.fst).sum - l.length * a.1 := by
  induction l with
  | nil => simp
  | cons x xs ih =>
      simp only [List.map_cons, List.sum_cons, List.length_cons]
      rw [ih]
      simp only [csub]
      push_cast
      ring

theorem sum_map_csub_snd (l : List Cq) (a : Cq) :
    ((l.map (fun s => csub s a)).map Prod.snd).sum
      = (l.map Prod.snd).sum - l.length * a.2 := by
  induction l with
  | nil => simp
  | cons x xs ih =>
      simp only [List.map_cons, List.sum_cons, List.length_cons]
      rw [ih]
      simp only [csub]
      push_cast
      ring

theorem neg_tmod_left (s b : ℤ) : Int.tmod (-s) b = -(Int.tmod s b) := by
  rw [Int.tmod_def, Int.tmod_def, Int.neg_tdiv]
  ring

theorem tmod_tdiv_eq_zero (s b : ℤ) (hb : 0 ≤ b) : (Int.tmod s b).tdiv b = 0 := by
  rcases eq_or_lt_of_le hb with hb0 | hbpos
  · rw [← hb0]
    simp
  · rcases le_or_lt 0 (Int.tmod s b) with hm | hm
    · exact Int.tdiv_eq_zero_of_lt hm (Int.tmod_lt_of_pos s hbpos)
    · have hs : s < 0 := by
        by_contra hs
        have := Int.tmod_nonneg (a := s) b (by omega)
        omega
      have h1 : Int.tmod s b = -(Int.tmod (-s) b) := by
        rw [neg_tmod_left, neg_neg]
      rw [h1, Int.neg_tdiv,
        Int.tdiv_eq_zero_of_lt (Int.tmod_nonneg (a := -s) b (by omega))
          (Int.tmod_lt_of_pos (-s) hbpos)]
      simp

theorem sub_mul_tdiv_tdiv_eq_zero (s : ℤ) (b : ℤ) (hb : 0 ≤ b) :
    (s - b * s.tdiv b).tdiv b = 0 := by
  rw [← Int.tmod_def]
  exact tmod_tdiv_eq_zero s b hb

/-! ## Claim C8: idempotence of remove_dc -/

/-- C8: `remove_dc` is idempotent: for every N-length buffer, applying it
twice yields the same buffer contents as applying it once; and when the
computed mean is exactly the zero complex value the buffer is left entirely
unchanged. -/
theorem dc_average_full (l : List Cq) :
    dc_average l l.length = (((l.map Prod.fst).sum).tdiv l.length,
                             ((l.map Prod.snd).sum).tdiv l.length) := by
  rw [dc_average, List.take_length, csum_eq]

theorem remove_dc_idempotent (iqbuf : List Cq) (N : ℕ) (hlen : iqbuf.length = N) :
    remove_dc (remove_dc iqbuf N) N = remove_dc iqbuf N ∧
    (dc_average iqbuf N = (0, 0) → remove_dc iqbuf N = iqbuf) := by
  subst hlen
  refine ⟨?_, fun h => by rw [remove_dc, if_pos h]⟩
  by_cases h : dc_average iqbuf iqbuf.length = (0, 0)
  · have hz : remove_dc iqbuf iqbuf.length = iqbuf := by rw [remove_dc, if_pos h]
    rw [hz]
    exact hz
  · set a := dc_average iqbuf iqbuf.length with ha
    have hfirst : remove_dc iqbuf iqbuf.length = iqbuf.map (fun s => csub s a) := by
      rw [remove_dc, ← ha, if_neg h, List.take_length, List.drop_length, List.append_nil]
    set l2 := iqbuf.map (fun s => csub s a) with hl2
    have hlen2 : l2.length = iqbuf.length := by rw [hl2, List.length_map]
    have hb : (0 : ℤ) ≤ (iqbuf.length : ℤ) := by positivity
    have havg2 : dc_average l2 l2.length = (0, 0) := by
      rw [dc_average_full, hl2, sum_map_csub_fst, sum_map_csub_snd, List.length_map,
        ha, dc_average_full]
      rw [sub_mul_tdiv_tdiv_eq_zero _ _ hb, sub_mul_tdiv_tdiv_eq_zero _ _ hb]
    rw [hfirst, ← hlen2, remove_dc, if_pos havg2]

/-- C8 witness: a concrete 2-sample buffer with zero mean is left unchanged,
and `remove_dc` is idempotent on it. -/
theorem remove_dc_idempotent_witness :
    ([((3 : ℤ), (-3 : ℤ)), ((-3 : ℤ), (3 : ℤ))] : List Cq).length = 2 ∧
    remove_dc (remove_dc [((3 : ℤ), (-3 : ℤ)), ((-3 : ℤ), (3 : ℤ))] 2) 2
      = remove_dc [((3 : ℤ), (-3 : ℤ)), ((-3 : ℤ), (3 : ℤ))] 2 ∧
    remove_dc [((3 : ℤ), (-3 : ℤ)), ((-3 : ℤ), (3 : ℤ))] 2
      = [((3 : ℤ), (-3 : ℤ)), ((-3 : ℤ), (3 : ℤ))] :=
  ⟨by decide,
   (remove_dc_idempotent [((3 : ℤ), (-3 : ℤ)), ((-3 : ℤ), (3 : ℤ))] 2 (by decide)).1,
   (remove_dc_idempotent [((3 : ℤ), (-3 : ℤ)), ((-3 : ℤ), (3 : ℤ))] 2 (by decide)).2
     (by decide)⟩

/-! ## Claim C3: what the analysis stage writes to the output file -/

/-- C3 (code bug): the body of `print_fft` is preprocessor-disabled, so for
every processed buffer the output file receives no bins and no metadata from
the analysis stage: `print_fft` emits no records, and hence the fft stage
emits no records either. -/
theorem print_fft_emits_nothing (fc bw : ℕ) (iqbuf : List Cq) (N : ℕ)
    (fft_size : ℕ) (e : List Cq) (r : rb_read_result (List Cq)) :
    print_fft fc bw iqbuf N = [] ∧ (fft_stage fft_size e fc bw r).2 = [] := by
  refine ⟨rfl, ?_⟩
  cases r <;> simp [fft_stage, get_iq_buffer_uptr, rb_read_status, print_fft]

/-! ## Claim C4: which stage results make a stage function return false -/

/-- C4 counterexample: when the fft stage finds its input queue empty but
open (read status `0`), it returns `false`, contrary to the claim that only
an unrecoverable local failure makes a stage function return `false`. -/
theorem fft_stage_false_on_empty_queue :
    (fft_stage 8 [] 0 0 (rb_read_result.empty : rb_read_result (List Cq))).1 = false ∧
    rb_read_status (rb_read_result.empty : rb_read_result (List Cq)) = 0 := by
  constructor <;> rfl

/-- C4 amended: the producer stage returns `false` only on a hard read
failure, but the fft stage returns `false` whenever its input queue read
does not yield a buffer, i.e. also when the queue is merely empty (or
closed), not only on an unrecoverable local failure. -/
theorem stage_return_values (fft_size : ℕ) (e : List Cq) (fc bw : ℕ)
    (r : rb_read_result (List Cq)) (raw : List ℕ) (read_status : ℤ)
    (n_read counter : ℕ) :
    ((fft_stage fft_size e fc bw r).1 = false ↔
      r = rb_read_result.empty ∨ r = rb_read_result.closed) ∧
    ((producer raw fft_size read_status n_read counter).1 = false ↔
      read_status ≠ 0) := by
  constructor
  · cases r <;> simp [fft_stage, get_iq_buffer_uptr, rb_read_status]
  · unfold producer
    split_ifs <;> simp_all

/-! ## Claim C5: validation of the configured transform size -/

theorem nat_land_pred_eq_zero_pow2 (a : ℕ) (ha : 0 < a)
    (h : a &&& (a - 1) = 0) : ∃ k : ℕ, a = 2 ^ k := by
  refine ⟨a.log2, ?_⟩
  by_contra hne
  have h1 : 2 ^ a.log2 ≤ a := Nat.log2_self_le (by omega)
  have h2 : a < 2 ^ (a.log2 + 1) := Nat.lt_log2_self
  have h3 : 2 ^ a.log2 < a := lt_of_le_of_ne h1 fun he => hne he.symm
  have hpow : 2 ^ (a.log2 + 1) = 2 * 2 ^ a.log2 := by ring
  have hbit_a : a.testBit a.log2 = true := by
    rw [Nat.testBit_to_div_mod]
    have hd : a / 2 ^ a.log2 = 1 := Nat.div_eq_of_lt_le (by omega) (by omega)
    simp [hd]
  have hbit_b : (a - 1).testBit a.log2 = true := by
    rw [Nat.testBit_to_div_mod]
    have hd : (a - 1) / 2 ^ a.log2 = 1 := Nat.div_eq_of_lt_le (by omega) (by omega)
    simp [hd]
  have hland := Nat.testBit_land a (a - 1) a.log2
  rw [h, Nat.zero_testBit, hbit_a, hbit_b] at hland
  simp at hland

theorem int_land_zero_left (n : ℤ) : Int.land 0 n = 0 := by
  cases n with
  | ofNat m =>
      show ((0 &&& m : ℕ) : ℤ) = 0
      simp
  | negSucc m =>
      show ((Nat.ldiff 0 m : ℕ) : ℤ) = 0
      have : Nat.ldiff 0 m = 0 := by
        show Nat.bitwise _ 0 m = 0
        rw [Nat.bitwise_zero_left]
        simp
      simp [this]

theorem int_land_pred_eq_zero_pow2 (n : ℤ) (hn : 0 < n)
    (h : Int.land n (n - 1) = 0) : ∃ k : ℕ, n = 2 ^ k := by
  obtain ⟨a, rfl⟩ := Int.eq_ofNat_of_zero_le (le_of_lt hn)
  have ha : 0 < a := by exact_mod_cast hn
  have hsub : (a : ℤ) - 1 = ((a - 1 : ℕ) : ℤ) := by omega
  rw [hsub] at h
  have hland : Int.land (a : ℤ) ((a - 1 : ℕ) : ℤ) = ((a &&& (a - 1) : ℕ) : ℤ) := rfl
  rw [hland] at h
  have hz : a &&& (a - 1) = 0 := by exact_mod_cast h
  obtain ⟨k, hk⟩ := nat_land_pred_eq_zero_pow2 a ha hz
  exact ⟨k, by rw [hk]; push_cast; ring⟩

/-- C5 counterexample: the configured transform size `0` is not a power of
two, yet it passes both checks of `main` (`0 & -1 = 0` and `0 ≤ 8192`), so
the programme does not exit and the pipeline is constructed and started with
the invalid size. -/
theorem main_accepts_size_zero :
    main_accepts_fft_size 0 = true ∧ ¬∃ k : ℕ, (0 : ℤ) = 2 ^ k := by
  constructor
  · rw [main_accepts_fft_size]
    rw [if_neg (by simp [int_land_zero_left]), if_neg (by decide)]
  · rintro ⟨k, hk⟩
    have : (0 : ℤ) < 2 ^ k := by positivity
    omega

/-- C5 amended: for every configured transform size that is positive and
not a power of two, or exceeds the supported maximum, the programme reports
the configuration error and exits before the pipeline is constructed or
started; the size `0`, however, is not a power of two and is nevertheless
accepted by the check `fft_size & (fft_size - 1)`. -/
theorem main_rejects_invalid_fft_size (n : ℤ)
    (h : (0 < n ∧ ¬∃ k : ℕ, n = 2 ^ k) ∨ FFT_SIZE_MAX < n) :
    main_accepts_fft_size n = false := by
  rcases h with ⟨hp, hnp⟩ | hbig
  · rw [main_accepts_fft_size,
      if_pos (fun hz => hnp (int_land_pred_eq_zero_pow2 n hp hz))]
  · rw [main_accepts_fft_size]
    by_cases hl : Int.land n (n - 1) ≠ 0
    · rw [if_pos hl]
    · rw [if_neg hl, if_pos hbig]

/-- C5 witness: the size `8193` exceeds the maximum `8192` and is
rejected. -/
theorem main_rejects_invalid_fft_size_witness :
    FFT_SIZE_MAX < (8193 : ℤ) ∧ main_accepts_fft_size 8193 = false :=
  ⟨by decide, main_rejects_invalid_fft_size 8193 (Or.inr (by decide))⟩

/-! ## Claim C9: acquisition-stage failure handling -/

/-- C9: the producer returns `false` exactly when `rtlsdr_read_sync`
reported a hard failure (nonzero status); on a short read (zero status but
a byte count different from the requested block size) it returns `true` and
produces neither buffers nor output lines. -/
theorem producer_false_iff_hard_read_failure (raw : List ℕ) (fft_size : ℕ)
    (read_status : ℤ) (n_read counter : ℕ) :
    ((producer raw fft_size read_status n_read counter).1 = false ↔
      read_status ≠ 0) ∧
    (read_status = 0 → n_read ≠ raw.length →
      producer raw fft_size read_status n_read counter = (true, [], [])) := by
  constructor
  · unfold producer
    split_ifs <;> simp_all
  · intro h0 hn
    unfold producer
    rw [if_neg (by simp [h0]), if_pos hn]

/-- C9 witness: a short read (status 0, 1 byte instead of the 0-byte block
of an empty raw buffer is impossible, so use a 2-byte buffer read short)
returns `true` with no output. -/
theorem producer_false_iff_hard_read_failure_witness :
    (0 : ℤ) = 0 ∧ (1 : ℕ) ≠ ([5, 6] : List ℕ).length ∧
    producer [5, 6] 4 0 1 0 = (true, [], []) :=
  ⟨rfl, by decide,
   (producer_false_iff_hard_read_failure [5, 6] 4 0 1 0).2 rfl (by decide)⟩

/-! ## Claim C10: time-domain samples written by the producer -/

theorem flatten_map_range_map {α : Type _} (n k : ℕ) (hk : 0 < k)
    (g : ℕ → ℕ → α) :
    ((List.range n).map (fun c => (List.range k).map (g c))).flatten
      = (List.range (n * k)).map (fun j => g (j / k) (j % k)) := by
  induction n with
  | zero => simp
  | succ n ih =>
      rw [List.range_succ, List.map_append, List.flatten_append, ih,
        Nat.succ_mul, List.range_add, List.map_append]
      congr 1
      simp only [List.map_cons, List.map_nil, List.flatten_cons, List.flatten_nil,
        List.append_nil, List.map_map]
      apply List.map_congr_left
      intro i hi
      rw [List.mem_range] at hi
      simp only [Function.comp_apply]
      rw [Nat.mul_comm n k, Nat.mul_add_div hk, Nat.mul_add_mod,
        Nat.div_eq_of_lt hi, Nat.mod_eq_of_lt hi, Nat.add_zero]

/-- C10: for every full raw block it converts (status 0, full byte count,
past the idle iterations), the producer writes to the output file one line
per converted sample, holding the raw integers `raw[2j] - 127` and
`raw[2j+1] - 127`, in sample order: the output file receives time-domain
samples emitted by the producer itself. -/
theorem producer_writes_time_domain_lines (raw : List ℕ) (fft_size : ℕ)
    (counter : ℕ) (hf : 0 < fft_size) (hc : IDLE_LOOPS_NUM ≤ counter) :
    (producer raw fft_size 0 raw.length counter).2.2
      = (List.range (((raw.length + (fft_size * 2 - 1)) / (fft_size * 2)) * fft_size)).map
          (fun j => ((raw.getD (2 * j) 0 : ℤ) - 127,
                     (raw.getD (2 * j + 1) 0 : ℤ) - 127)) := by
  have hf2 : 0 < fft_size * 2 := by omega
  unfold producer
  rw [if_neg (by simp), if_neg (by simp), if_neg (by omega)]
  show ((producer_offsets raw.length fft_size).map (chunk_lines raw fft_size)).flatten = _
  have hcomp : (chunk_lines raw fft_size ∘ (· * (fft_size * 2)))
      = fun c => (List.range fft_size).map
          (fun i => ((raw.getD (c * (fft_size * 2) + 2 * i) 0 : ℤ) - 127,
                     (raw.getD (c * (fft_size * 2) + 2 * i + 1) 0 : ℤ) - 127)) := by
    funext c
    rfl
  unfold producer_offsets
  rw [List.map_map, hcomp, flatten_map_range_map _ _ hf]
  apply List.map_congr_left
  intro j _
  have hj : j / fft_size * (fft_size * 2) + 2 * (j % fft_size) = 2 * j := by
    have := Nat.div_add_mod j fft_size
    nlinarith [Nat.div_add_mod j fft_size]
  rw [hj]

/-- C10 witness: a 4-byte raw block with `fft_size = 1` yields the two
time-domain lines `(-127, -126)` and `(-125, -124)`. -/
theorem producer_writes_time_domain_lines_witness :
    0 < 1 ∧ IDLE_LOOPS_NUM ≤ 1 ∧
    (producer [0, 1, 2, 3] 1 0 ([0, 1, 2, 3] : List ℕ).length 1).2.2
      = [((-127 : ℤ), (-126 : ℤ)), ((-125 : ℤ), (-124 : ℤ))] :=
  ⟨by decide, by decide, by
    rw [producer_writes_time_domain_lines [0, 1, 2, 3] 1 1 (by decide) (by decide)]
    decide⟩


/-! ## Bit-reversal arithmetic -/

theorem revBits_lt (k n : ℕ) : revBits k n < 2 ^ k := by
  induction k generalizing n with
  | zero => simp [revBits]
  | succ k ih =>
      have h1 : revBits k (n / 2) < 2 ^ k := ih (n / 2)
      have h2 : n % 2 * 2 ^ k ≤ 1 * 2 ^ k :=
        Nat.mul_le_mul_right _ (by omega)
      have h3 : 2 ^ (k + 1) = 2 ^ k + 2 ^ k := by ring
      simp only [revBits]
      omega

theorem revBits_zero (k : ℕ) : revBits k 0 = 0 := by
  induction k with
  | zero => rfl
  | succ k ih => simp [revBits, ih]

theorem revBits_two_mul (k a : ℕ) : revBits (k + 1) (2 * a) = revBits k a := by
  have h2 : 2 * a % 2 = 0 := by omega
  have h3 : 2 * a / 2 = a := by omega
  simp [revBits, h2, h3]

theorem revBits_two_mul_add_one (k a : ℕ) :
    revBits (k + 1) (2 * a + 1) = 2 ^ k + revBits k a := by
  have h2 : (2 * a + 1) % 2 = 1 := by omega
  have h3 : (2 * a + 1) / 2 = a := by omega
  simp [revBits, h2, h3]

theorem revBits_high_low (k b r : ℕ) (hb : b ≤ 1) (hr : r < 2 ^ k) :
    revBits (k + 1) (b * 2 ^ k + r) = 2 * revBits k r + b := by
  induction k generalizing b r with
  | zero =>
      interval_cases r
      interval_cases b <;> simp [revBits]
  | succ k ih =>
      have hp : b * 2 ^ (k + 1) = b * 2 ^ k * 2 := by ring
      have hmod : (b * 2 ^ (k + 1) + r) % 2 = r % 2 := by
        rw [hp]
        omega
      have hdiv : (b * 2 ^ (k + 1) + r) / 2 = b * 2 ^ k + r / 2 := by
        rw [hp]
        omega
      have hr2 : r / 2 < 2 ^ k := by omega
      calc revBits (k + 2) (b * 2 ^ (k + 1) + r)
          = (b * 2 ^ (k + 1) + r) % 2 * 2 ^ (k + 1)
              + revBits (k + 1) ((b * 2 ^ (k + 1) + r) / 2) := rfl
        _ = r % 2 * 2 ^ (k + 1) + revBits (k + 1) (b * 2 ^ k + r / 2) := by
              rw [hmod, hdiv]
        _ = r % 2 * 2 ^ (k + 1) + (2 * revBits k (r / 2) + b) := by
              rw [ih b (r / 2) hb hr2]
        _ = 2 * (r % 2 * 2 ^ k + revBits k (r / 2)) + b := by
              ring
        _ = 2 * revBits (k + 1) r + b := rfl

theorem revBits_revBits (k n : ℕ) (hn : n < 2 ^ k) :
    revBits k (revBits k n) = n := by
  induction k generalizing n with
  | zero =>
      have : n = 0 := by omega
      simp [this, revBits]
  | succ k ih =>
      have hp : 2 ^ (k + 1) = 2 * 2 ^ k := by ring
      have ha : n / 2 < 2 ^ k := by omega
      have hb : n % 2 ≤ 1 := by omega
      have h1 : revBits (k + 1) n = n % 2 * 2 ^ k + revBits k (n / 2) := rfl
      rw [h1, revBits_high_low k (n % 2) (revBits k (n / 2)) hb (revBits_lt k (n / 2)),
        ih (n / 2) ha]
      omega

theorem revBits_injOn (k a b : ℕ) (ha : a < 2 ^ k) (hb : b < 2 ^ k)
    (h : revBits k a = revBits k b) : a = b := by
  have := revBits_revBits k a ha
  have := revBits_revBits k b hb
  rw [h] at *
  omega

theorem revBits_all_ones (k : ℕ) : revBits k (2 ^ k - 1) = 2 ^ k - 1 := by
  induction k with
  | zero => rfl
  | succ k ih =>
      have hp : 2 ^ (k + 1) = 2 * 2 ^ k := by ring
      have h1 : 2 ^ (k + 1) - 1 = 2 * (2 ^ k - 1) + 1 := by
        have : 1 ≤ 2 ^ k := Nat.one_le_two_pow
        omega
      rw [h1, revBits_two_mul_add_one, ih]
      have : 1 ≤ 2 ^ k := Nat.one_le_two_pow
      omega


/-! ## The halving loop and the next-m update -/

theorem computeLFuel_congr (m N : ℕ) (l : ℕ) : ∀ f1 f2, l ≤ f1 → l ≤ f2 →
    computeLFuel m N f1 l = computeLFuel m N f2 l := by
  induction l using Nat.strong_induction_on with
  | _ l ih =>
    intro f1 f2 h1 h2
    match f1, f2 with
    | 0, 0 => rfl
    | 0, f2 + 1 =>
        have hl : l = 0 := by omega
        subst hl
        simp [computeLFuel]
    | f1 + 1, 0 =>
        have hl : l = 0 := by omega
        subst hl
        simp [computeLFuel]
    | f1 + 1, f2 + 1 =>
        simp only [computeLFuel]
        by_cases hc : l / 2 ≠ 0 ∧ m + l / 2 ≥ N
        · rw [if_pos hc, if_pos hc]
          exact ih (l / 2) (by omega) f1 f2 (by omega) (by omega)
        · rw [if_neg hc, if_neg hc]

theorem computeL_unfold (m N l : ℕ) :
    computeL m N l
      = if l / 2 ≠ 0 ∧ m + l / 2 ≥ N then computeL m N (l / 2) else l / 2 := by
  cases l with
  | zero => simp [computeL, computeLFuel]
  | succ l2 =>
      show computeLFuel m N (l2 + 1) (l2 + 1) = _
      simp only [computeLFuel]
      by_cases hc : (l2 + 1) / 2 ≠ 0 ∧ m + (l2 + 1) / 2 ≥ N
      · rw [if_pos hc, if_pos hc]
        exact computeLFuel_congr m N ((l2 + 1) / 2) l2 ((l2 + 1) / 2) (by omega) (le_refl _)
      · rw [if_neg hc, if_neg hc]

theorem computeL_le_half (m N l : ℕ) : computeL m N l ≤ l / 2 := by
  induction l using Nat.strong_induction_on with
  | _ l ih =>
    rw [computeL_unfold]
    by_cases hc : l / 2 ≠ 0 ∧ m + l / 2 ≥ N
    · rw [if_pos hc]
      have := ih (l / 2) (by omega)
      omega
    · rw [if_neg hc]

theorem computeL_shift (k r l : ℕ) :
    computeL (2 ^ k + r) (2 ^ (k + 1)) l = computeL r (2 ^ k) l := by
  induction l using Nat.strong_induction_on with
  | _ l ih =>
    rw [computeL_unfold (2 ^ k + r), computeL_unfold r]
    have hpow : 2 ^ (k + 1) = 2 ^ k + 2 ^ k := by ring
    have hcond : (l / 2 ≠ 0 ∧ 2 ^ k + r + l / 2 ≥ 2 ^ (k + 1))
        ↔ (l / 2 ≠ 0 ∧ r + l / 2 ≥ 2 ^ k) := by
      rw [hpow]
      omega
    by_cases hc : l / 2 ≠ 0 ∧ r + l / 2 ≥ 2 ^ k
    · rw [if_pos (hcond.mpr hc), if_pos hc, ih (l / 2) (by omega)]
    · rw [if_neg (fun h => hc (hcond.mp h)), if_neg hc]

theorem two_pow_succ_div_two (k : ℕ) : 2 ^ (k + 1) / 2 = 2 ^ k := by
  have : 2 ^ (k + 1) = 2 ^ k * 2 := by ring
  omega

theorem computeL_low (k m : ℕ) (hm : m < 2 ^ k) :
    computeL m (2 ^ (k + 1)) (2 ^ (k + 1)) = 2 ^ k := by
  rw [computeL_unfold, two_pow_succ_div_two]
  have hpow : 2 ^ (k + 1) = 2 ^ k + 2 ^ k := by ring
  rw [if_neg (by omega)]

theorem computeL_high (k r : ℕ) :
    computeL (2 ^ k + r) (2 ^ (k + 1)) (2 ^ (k + 1)) = computeL r (2 ^ k) (2 ^ k) := by
  rw [computeL_unfold, two_pow_succ_div_two]
  have hpow : 2 ^ (k + 1) = 2 ^ k + 2 ^ k := by ring
  have h0 : 0 < 2 ^ k := Nat.pos_pow_of_pos k (by norm_num)
  rw [if_pos (by omega), computeL_shift]

theorem and_of_lt_two_pow (a x k : ℕ) (hx : x < 2 ^ k) :
    a &&& x = a % 2 ^ k &&& x := by
  apply Nat.eq_of_testBit_eq
  intro i
  rw [Nat.testBit_and, Nat.testBit_and, Nat.testBit_mod_two_pow]
  by_cases hik : i < k
  · simp [hik]
  · have hxi : x.testBit i = false :=
      Nat.testBit_lt_two_pow
        (lt_of_lt_of_le hx (Nat.pow_le_pow_right (by norm_num) (by omega)))
    simp [hxi]

/-- The update `m = (m & (l - 1)) + l` performed with `m = revBits k n` and
`N = 2 ^ k` produces `revBits k (n + 1)`: the halving loop plus the masked
add implement the increment in bit-reversed order. -/
theorem fft_next_m_rev (k n : ℕ) (h : n + 1 < 2 ^ k) :
    fft_next_m (2 ^ k) (revBits k n) = revBits k (n + 1) := by
  induction k generalizing n with
  | zero => omega
  | succ k ih =>
      rcases Nat.even_or_odd n with ⟨a, ha⟩ | ⟨a, ha⟩
      · -- n = 2 * a is even: revBits is below 2 ^ k, the loop stops at 2 ^ k
        subst ha
        have hrw : a + a = 2 * a := by ring
        rw [hrw] at h ⊢
        have hm : revBits (k + 1) (2 * a) = revBits k a := revBits_two_mul k a
        have hlt : revBits k a < 2 ^ k := revBits_lt k a
        show (revBits (k + 1) (2 * a) &&&
            (computeL (revBits (k + 1) (2 * a)) (2 ^ (k + 1)) (2 ^ (k + 1)) - 1))
            + computeL (revBits (k + 1) (2 * a)) (2 ^ (k + 1)) (2 ^ (k + 1))
            = revBits (k + 1) (2 * a + 1)
        rw [hm, computeL_low k _ hlt, Nat.and_pow_two_sub_one_eq_mod,
          Nat.mod_eq_of_lt hlt, revBits_two_mul_add_one]
        omega
      · -- n = 2 * a + 1 is odd: the high bit of m is set, descend to 2 ^ k
        subst ha
        have ha1 : a + 1 < 2 ^ k := by
          have : 2 ^ (k + 1) = 2 * 2 ^ k := by ring
          omega
        have hm : revBits (k + 1) (2 * a + 1) = 2 ^ k + revBits k a :=
          revBits_two_mul_add_one k a
        have hlt : revBits k a < 2 ^ k := revBits_lt k a
        have hl0 := computeL_le_half (revBits k a) (2 ^ k) (2 ^ k)
        have hl1 : computeL (revBits k a) (2 ^ k) (2 ^ k) - 1 < 2 ^ k := by
          have h0 : 0 < 2 ^ k := Nat.pos_pow_of_pos k (by norm_num)
          omega
        show (revBits (k + 1) (2 * a + 1) &&&
            (computeL (revBits (k + 1) (2 * a + 1)) (2 ^ (k + 1)) (2 ^ (k + 1)) - 1))
            + computeL (revBits (k + 1) (2 * a + 1)) (2 ^ (k + 1)) (2 ^ (k + 1))
            = revBits (k + 1) (2 * a + 1 + 1)
        rw [hm, computeL_high k (revBits k a),
          and_of_lt_two_pow _ _ k hl1, Nat.add_mod_left, Nat.mod_eq_of_lt hlt]
        have hstep := ih a ha1
        show (revBits k a &&& (computeL (revBits k a) (2 ^ k) (2 ^ k) - 1))
            + computeL (revBits k a) (2 ^ k) (2 ^ k) = revBits (k + 1) (2 * a + 1 + 1)
        have h2a2 : 2 * a + 1 + 1 = 2 * (a + 1) := by ring
        rw [h2a2, revBits_two_mul, ← hstep]
        rfl


/-! ## Swap lemmas -/

theorem listSwap_def_of_lt {α : Type _} {l : List α} {i j : ℕ}
    (hi : i < l.length) (hj : j < l.length) :
    listSwap l i j = (l.set i l[j]).set j l[i] := by
  unfold listSwap
  rw [List.getElem?_eq_getElem hi, List.getElem?_eq_getElem hj]

theorem listSwap_length {α : Type _} (l : List α) (i j : ℕ) :
    (listSwap l i j).length = l.length := by
  unfold listSwap
  cases hi : l[i]? <;> cases hj : l[j]? <;> simp

theorem listSwap_of_ge {α : Type _} {l : List α} {i j : ℕ}
    (h : l.length ≤ i ∨ l.length ≤ j) : listSwap l i j = l := by
  unfold listSwap
  rcases h with h | h
  · rw [List.getElem?_eq_none h]
  · rw [List.getElem?_eq_none h]
    cases l[i]? <;> rfl

theorem listSwap_getElem? {α : Type _} (l : List α) (i j p : ℕ)
    (hi : i < l.length) (hj : j < l.length) :
    (listSwap l i j)[p]?
      = if p = j then some l[i] else if p = i then some l[j] else l[p]? := by
  rw [listSwap_def_of_lt hi hj]
  by_cases hpj : p = j
  · subst hpj
    rw [if_pos rfl]
    exact List.getElem?_set_eq_of_lt l[i] (by simpa using hj)
  · rw [if_neg hpj, List.getElem?_set_ne (fun h => hpj h.symm)]
    by_cases hpi : p = i
    · subst hpi
      rw [if_pos rfl]
      exact List.getElem?_set_eq_of_lt l[j] hi
    · rw [if_neg hpi, List.getElem?_set_ne (fun h => hpi h.symm)]

theorem listSwap_swap_self {α : Type _} (l : List α) (i j : ℕ) :
    listSwap (listSwap l i j) i j = l := by
  by_cases hi : i < l.length
  · by_cases hj : j < l.length
    · have hi2 : i < (listSwap l i j).length := by rw [listSwap_length]; exact hi
      have hj2 : j < (listSwap l i j).length := by rw [listSwap_length]; exact hj
      apply List.ext_getElem?
      intro p
      rw [listSwap_getElem? (listSwap l i j) i j p hi2 hj2]
      have e2 : some ((listSwap l i j)[j]) = some l[i] := by
        rw [← List.getElem?_eq_getElem hj2, listSwap_getElem? l i j j hi hj, if_pos rfl]
      have e1 : some ((listSwap l i j)[i])
          = if i = j then some l[i] else some l[j] := by
        rw [← List.getElem?_eq_getElem hi2, listSwap_getElem? l i j i hi hj]
        by_cases h : i = j
        · subst h
          simp
        · rw [if_neg h, if_pos rfl, if_neg h]
      by_cases hpj : p = j
      · subst hpj
        rw [if_pos rfl, e1]
        by_cases h : i = p
        · subst h
          simp
        · rw [if_neg h, List.getElem?_eq_getElem hj]
      · rw [if_neg hpj]
        by_cases hpi : p = i
        · subst hpi
          rw [if_pos rfl, e2, List.getElem?_eq_getElem hi]
        · rw [if_neg hpi, listSwap_getElem? l i j p hi hj, if_neg hpj, if_neg hpi]
    · rw [listSwap_of_ge (Or.inr (le_of_not_lt hj)),
        listSwap_of_ge (Or.inr (le_of_not_lt hj))]
  · rw [listSwap_of_ge (Or.inl (le_of_not_lt hi)),
      listSwap_of_ge (Or.inl (le_of_not_lt hi))]

theorem listSwap_comm_of_disjoint {α : Type _} (l : List α) (a b i j : ℕ)
    (hia : i ≠ a) (hib : i ≠ b) (hja : j ≠ a) (hjb : j ≠ b) :
    listSwap (listSwap l a b) i j = listSwap (listSwap l i j) a b := by
  by_cases hi : i < l.length
  · by_cases hj : j < l.length
    · by_cases ha : a < l.length
      · by_cases hb : b < l.length
        · have la := listSwap_length l a b
          have lb := listSwap_length l i j
          apply List.ext_getElem?
          intro p
          rw [listSwap_getElem? (listSwap l a b) i j p (by omega) (by omega),
            listSwap_getElem? (listSwap l i j) a b p (by omega) (by omega)]
          have eai : some ((listSwap l a b)[i]) = l[i]? := by
            rw [← List.getElem?_eq_getElem (by omega : i < (listSwap l a b).length),
              listSwap_getElem? l a b i ha hb, if_neg hib, if_neg hia]
          have eaj : some ((listSwap l a b)[j]) = l[j]? := by
            rw [← List.getElem?_eq_getElem (by omega : j < (listSwap l a b).length),
              listSwap_getElem? l a b j ha hb, if_neg hjb, if_neg hja]
          have eba : some ((listSwap l i j)[a]) = l[a]? := by
            rw [← List.getElem?_eq_getElem (by omega : a < (listSwap l i j).length),
              listSwap_getElem? l i j a hi hj, if_neg (fun h => hja h.symm),
              if_neg (fun h => hia h.symm)]
          have ebb : some ((listSwap l i j)[b]) = l[b]? := by
            rw [← List.getElem?_eq_getElem (by omega : b < (listSwap l i j).length),
              listSwap_getElem? l i j b hi hj, if_neg (fun h => hjb h.symm),
              if_neg (fun h => hib h.symm)]
          by_cases hpj : p = j
          · rw [if_pos hpj, eai, if_neg (show ¬p = b by omega),
              if_neg (show ¬p = a by omega), listSwap_getElem? l i j p hi hj,
              if_pos hpj, List.getElem?_eq_getElem hi]
          · by_cases hpi : p = i
            · rw [if_neg hpj, if_pos hpi, eaj, if_neg (show ¬p = b by omega),
                if_neg (show ¬p = a by omega), listSwap_getElem? l i j p hi hj,
                if_neg hpj, if_pos hpi, List.getElem?_eq_getElem hj]
            · rw [if_neg hpj, if_neg hpi, listSwap_getElem? l a b p ha hb]
              by_cases hpb : p = b
              · rw [if_pos hpb, if_pos hpb, eba, List.getElem?_eq_getElem ha]
              · rw [if_neg hpb, if_neg hpb]
                by_cases hpa : p = a
                · rw [if_pos hpa, if_pos hpa, ebb, List.getElem?_eq_getElem hb]
                · rw [if_neg hpa, if_neg hpa, listSwap_getElem? l i j p hi hj,
                    if_neg hpj, if_neg hpi]
        · have h2 : (listSwap l i j).length ≤ b := by rw [listSwap_length]; omega
          rw [listSwap_of_ge (l := l) (i := a) (j := b) (Or.inr (by omega)),
            listSwap_of_ge (Or.inr h2)]
      · have h2 : (listSwap l i j).length ≤ a := by rw [listSwap_length]; omega
        rw [listSwap_of_ge (l := l) (i := a) (j := b) (Or.inl (by omega)),
          listSwap_of_ge (Or.inl h2)]
    · have h2 : (listSwap l a b).length ≤ j := by rw [listSwap_length]; omega
      rw [listSwap_of_ge (l := l) (i := i) (j := j) (Or.inr (by omega)),
        listSwap_of_ge (Or.inr h2)]
  · have h2 : (listSwap l a b).length ≤ i := by rw [listSwap_length]; omega
    rw [listSwap_of_ge (l := l) (i := i) (j := j) (Or.inl (by omega)),
      listSwap_of_ge (Or.inl h2)]


/-! ## The reorder loop as a sequence of swaps -/

theorem fft_reorder_loop_foldl {α : Type _} (N : ℕ) :
    ∀ (count n m : ℕ) (buf : List α),
      fft_reorder_loop N count n m buf
        = (fft_reorder_swaps_loop N count n m).foldl
            (fun b p => listSwap b p.1 p.2) buf := by
  intro count
  induction count with
  | zero => intro n m buf; rfl
  | succ c ih =>
      intro n m buf
      show fft_reorder_loop N c (n + 1) (fft_next_m N m)
          (if fft_next_m N m ≤ n then buf else listSwap buf n (fft_next_m N m))
        = ((if fft_next_m N m ≤ n then [] else [(n, fft_next_m N m)])
            ++ fft_reorder_swaps_loop N c (n + 1) (fft_next_m N m)).foldl
            (fun b p => listSwap b p.1 p.2) buf
      by_cases h : fft_next_m N m ≤ n
      · rw [if_pos h, if_pos h, List.nil_append]
        exact ih _ _ _
      · rw [if_neg h, if_neg h, List.singleton_append, List.foldl_cons]
        exact ih _ _ _

theorem fft_reorder_swaps_loop_eq (k : ℕ) :
    ∀ count n, 1 ≤ n → n + count = 2 ^ k →
      fft_reorder_swaps_loop (2 ^ k) count n (revBits k (n - 1))
        = ((List.range' n count).filter (fun i => decide (i < revBits k i))).map
            (fun i => (i, revBits k i)) := by
  intro count
  induction count with
  | zero => intro n h1 h2; rfl
  | succ c ih =>
      intro n h1 h2
      have hrev : fft_next_m (2 ^ k) (revBits k (n - 1)) = revBits k n := by
        have h := fft_next_m_rev k (n - 1) (by omega)
        rwa [show n - 1 + 1 = n by omega] at h
      show (if fft_next_m (2 ^ k) (revBits k (n - 1)) ≤ n then []
            else [(n, fft_next_m (2 ^ k) (revBits k (n - 1)))])
          ++ fft_reorder_swaps_loop (2 ^ k) c (n + 1)
              (fft_next_m (2 ^ k) (revBits k (n - 1))) = _
      rw [hrev]
      have htail : fft_reorder_swaps_loop (2 ^ k) c (n + 1) (revBits k n)
          = ((List.range' (n + 1) c).filter (fun i => decide (i < revBits k i))).map
              (fun i => (i, revBits k i)) := by
        have h := ih (n + 1) (by omega) (by omega)
        rwa [show n + 1 - 1 = n from rfl] at h
      rw [htail, List.range'_succ, List.filter_cons]
      by_cases hc : n < revBits k n
      · rw [if_neg (by omega), if_pos (by simpa using hc), List.map_cons,
          List.singleton_append]
      · rw [if_pos (by omega), if_neg (by simpa using hc), List.nil_append]

theorem fft_reorder_swaps_eq (k : ℕ) :
    fft_reorder_swaps (2 ^ k)
      = ((List.range (2 ^ k)).filter (fun i => decide (i < revBits k i))).map
          (fun i => (i, revBits k i)) := by
  have h1 : (1 : ℕ) ≤ 2 ^ k := Nat.one_le_two_pow
  have h := fft_reorder_swaps_loop_eq k (2 ^ k - 1) 1 (le_refl 1) (by omega)
  rw [show (1 : ℕ) - 1 = 0 from rfl, revBits_zero] at h
  show fft_reorder_swaps_loop (2 ^ k) (2 ^ k - 1) 1 0 = _
  rw [h]
  have hr : List.range (2 ^ k) = 0 :: List.range' 1 (2 ^ k - 1) := by
    rw [List.range_eq_range', show 2 ^ k = (2 ^ k - 1) + 1 by omega, List.range'_succ]
    simp
  rw [hr, List.filter_cons]
  rw [if_neg (by simp [revBits_zero])]

/-! ## Applying a family of pairwise disjoint swaps twice is the identity -/

theorem foldl_listSwap_comm {α : Type _} (s : List (ℕ × ℕ)) (a b : ℕ)
    (buf : List α)
    (h : ∀ p ∈ s, p.1 ≠ a ∧ p.1 ≠ b ∧ p.2 ≠ a ∧ p.2 ≠ b) :
    s.foldl (fun x p => listSwap x p.1 p.2) (listSwap buf a b)
      = listSwap (s.foldl (fun x p => listSwap x p.1 p.2) buf) a b := by
  induction s generalizing buf with
  | nil => rfl
  | cons q rest ih =>
      simp only [List.foldl_cons]
      obtain ⟨h1, h2, h3, h4⟩ := h q (by simp)
      rw [listSwap_comm_of_disjoint buf a b q.1 q.2 h1 h2 h3 h4]
      exact ih _ (fun p hp => h p (by simp [hp]))

theorem foldl_listSwap_involution {α : Type _} (s : List (ℕ × ℕ)) (buf : List α)
    (hdisj : s.Pairwise
      (fun p q => p.1 ≠ q.1 ∧ p.1 ≠ q.2 ∧ p.2 ≠ q.1 ∧ p.2 ≠ q.2)) :
    s.foldl (fun x p => listSwap x p.1 p.2)
        (s.foldl (fun x p => listSwap x p.1 p.2) buf) = buf := by
  induction s generalizing buf with
  | nil => rfl
  | cons q rest ih =>
      rw [List.pairwise_cons] at hdisj
      obtain ⟨hq, hrest⟩ := hdisj
      simp only [List.foldl_cons]
      have hargs : ∀ p ∈ rest, p.1 ≠ q.1 ∧ p.1 ≠ q.2 ∧ p.2 ≠ q.1 ∧ p.2 ≠ q.2 := by
        intro p hp
        obtain ⟨a1, a2, a3, a4⟩ := hq p hp
        exact ⟨fun h => a1 h.symm, fun h => a3 h.symm, fun h => a2 h.symm,
          fun h => a4 h.symm⟩
      rw [foldl_listSwap_comm rest q.1 q.2 buf hargs, listSwap_swap_self]
      exact ih _ hrest

theorem fft_reorder_swaps_pairwise_disjoint (k : ℕ) :
    (fft_reorder_swaps (2 ^ k)).Pairwise
      (fun p q => p.1 ≠ q.1 ∧ p.1 ≠ q.2 ∧ p.2 ≠ q.1 ∧ p.2 ≠ q.2) := by
  rw [fft_reorder_swaps_eq]
  have hbase : ((List.range (2 ^ k)).filter
      (fun i => decide (i < revBits k i))).Pairwise
      (fun a b => a < b ∧ a < 2 ^ k ∧ b < 2 ^ k ∧
        a < revBits k a ∧ b < revBits k b) := by
    have hp : (List.range (2 ^ k)).Pairwise (· < ·) := List.pairwise_lt_range _
    have hfil := hp.filter (fun i => decide (i < revBits k i))
    apply hfil.imp_of_mem
    intro a b hma hmb hab
    have ha := List.mem_filter.mp hma
    have hb := List.mem_filter.mp hmb
    have ha1 : a < 2 ^ k := List.mem_range.mp ha.1
    have hb1 : b < 2 ^ k := List.mem_range.mp hb.1
    have ha2 : a < revBits k a := by simpa using ha.2
    have hb2 : b < revBits k b := by simpa using hb.2
    exact ⟨hab, ha1, hb1, ha2, hb2⟩
  apply hbase.map
  intro a b h
  obtain ⟨hab, ha2, hb2, hra, hrb⟩ := h
  refine ⟨by omega, ?_, ?_, ?_⟩
  · intro he
    dsimp only at he
    have hh : revBits k a = b := by rw [he, revBits_revBits k b hb2]
    omega
  · intro he
    dsimp only at he
    have hh : a = revBits k b := by rw [← he, revBits_revBits k a ha2]
    omega
  · intro he
    dsimp only at he
    have hh := revBits_injOn k a b ha2 hb2 he
    omega

/-! ## Claim C6: the sample reorder is an involution -/

/-- C6: the bit-reversal sample reorder is its own inverse: for every
power-of-two transform size `2 ^ k` and every buffer of that length,
applying `fft_reorder_samples` twice returns the original sequence
exactly. -/
theorem fft_reorder_samples_involution {α : Type _} (k : ℕ) (buf : List α)
    (hlen : buf.length = 2 ^ k) :
    fft_reorder_samples (fft_reorder_samples buf (2 ^ k)) (2 ^ k) = buf := by
  have hfold : ∀ x : List α, fft_reorder_samples x (2 ^ k)
      = (fft_reorder_swaps (2 ^ k)).foldl (fun b p => listSwap b p.1 p.2) x :=
    fun x => fft_reorder_loop_foldl (2 ^ k) (2 ^ k - 1) 1 0 x
  rw [hfold, hfold]
  exact foldl_listSwap_involution _ buf (fft_reorder_swaps_pairwise_disjoint k)

/-- C6 witness: re-ordering the 8-element buffer twice gives it back. -/
theorem fft_reorder_samples_involution_witness :
    ([10, 11, 12, 13, 14, 15, 16, 17] : List ℕ).length = 2 ^ 3 ∧
    fft_reorder_samples
        (fft_reorder_samples ([10, 11, 12, 13, 14, 15, 16, 17] : List ℕ) (2 ^ 3))
        (2 ^ 3)
      = [10, 11, 12, 13, 14, 15, 16, 17] :=
  ⟨by decide, fft_reorder_samples_involution 3 _ (by decide)⟩


/-! ## Claim C7: the swap discipline of the reorder loop -/

theorem computeL_largest (k m : ℕ) (hm : m + 1 < 2 ^ k) :
    (∃ j, computeL m (2 ^ k) (2 ^ k) = 2 ^ j) ∧
    computeL m (2 ^ k) (2 ^ k) ∣ 2 ^ k ∧
    m + computeL m (2 ^ k) (2 ^ k) < 2 ^ k ∧
    ∀ l2, (∃ j, l2 = 2 ^ j) → l2 ∣ 2 ^ k → m + l2 < 2 ^ k →
      l2 ≤ computeL m (2 ^ k) (2 ^ k) := by
  induction k generalizing m with
  | zero => omega
  | succ k ih =>
      have hpow : 2 ^ (k + 1) = 2 ^ k + 2 ^ k := by ring
      by_cases hm2 : m < 2 ^ k
      · rw [computeL_low k m hm2]
        refine ⟨⟨k, rfl⟩, ⟨2, by ring⟩, by omega, ?_⟩
        rintro l2 ⟨j, rfl⟩ hdvd hlt
        have hj : j ≤ k + 1 := Nat.pow_dvd_pow_iff_le_right'.mp hdvd
        have hjk : j ≤ k := by
          by_contra hcon
          have hj1 : j = k + 1 := by omega
          subst hj1
          omega
        exact Nat.pow_le_pow_right (by norm_num) hjk
      · obtain ⟨r, rfl⟩ : ∃ r, m = 2 ^ k + r := ⟨m - 2 ^ k, by omega⟩
        rw [computeL_high k r]
        have hr : r + 1 < 2 ^ k := by omega
        obtain ⟨⟨j, hj⟩, hdvd, hlt, hmax⟩ := ih r hr
        refine ⟨⟨j, hj⟩, dvd_trans hdvd ⟨2, by ring⟩, by omega, ?_⟩
        rintro l2 ⟨j2, rfl⟩ hdvd2 hlt2
        have hj2 : j2 ≤ k + 1 := Nat.pow_dvd_pow_iff_le_right'.mp hdvd2
        have hj2k : j2 ≤ k := by
          by_contra hcon
          have hj1 : j2 = k + 1 := by omega
          subst hj1
          omega
        exact hmax (2 ^ j2) ⟨j2, rfl⟩ (pow_dvd_pow 2 hj2k) (by omega)

theorem fft_reorder_swaps_nodup (k : ℕ) : (fft_reorder_swaps (2 ^ k)).Nodup := by
  rw [fft_reorder_swaps_eq]
  apply List.Nodup.map
  · intro a b h
    exact congrArg Prod.fst h
  · exact (List.nodup_range (2 ^ k)).filter _

/-- C7 counterexample: at `N = 4`, the reorder executes the swap `(n, m) =
(1, 2)` although `m = 2 > n = 1` — contradicting "swapped only if m ≤ n";
moreover the step chosen there is `l = 2`, although `l = 4` is a larger
power-of-two divisor of `N` for which advancing `m = 0` by `l` "does not
exceed N" (`0 + 4 ≤ 4`) — so the claim's description of the step choice
fails as well. -/
theorem fft_reorder_swap_m_gt_n :
    fft_reorder_swaps 4 = [(1, 2)] ∧ (1 : ℕ) < 2 ∧
    computeL 0 4 4 = 2 ∧ 0 + 4 ≤ 4 ∧ (4 : ℕ) ∣ 4 ∧ (4 : ℕ) = 2 ^ 2 ∧ ¬(4 ≤ 2) := by
  refine ⟨by decide, by decide, by decide, by decide, by decide, by decide, by decide⟩

/-- C7 amended: for each `n` from 1 to `N - 1` (with `N = 2 ^ k` and the
running index entering iteration `n` being `revBits k (n - 1)`), the loop
advances `m` using the largest power-of-two divisor `l` of `N` with
`m + l < N` (strictly below `N`, not "not exceeding" it), and the samples at
`n` and `m` are swapped only if `m > n` — not `m ≤ n` — so that each pair is
swapped exactly once: the executed swaps are exactly the pairs
`(n, revBits k n)` with `revBits k n > n`, each occurring once. -/
theorem fft_reorder_swap_discipline (k : ℕ) :
    (fft_reorder_swaps (2 ^ k)
        = ((List.range (2 ^ k)).filter (fun i => decide (i < revBits k i))).map
            (fun i => (i, revBits k i))) ∧
    (fft_reorder_swaps (2 ^ k)).Nodup ∧
    (∀ n, 1 ≤ n → n < 2 ^ k →
      (∃ j, computeL (revBits k (n - 1)) (2 ^ k) (2 ^ k) = 2 ^ j) ∧
      computeL (revBits k (n - 1)) (2 ^ k) (2 ^ k) ∣ 2 ^ k ∧
      revBits k (n - 1) + computeL (revBits k (n - 1)) (2 ^ k) (2 ^ k) < 2 ^ k ∧
      (∀ l2, (∃ j, l2 = 2 ^ j) → l2 ∣ 2 ^ k →
        revBits k (n - 1) + l2 < 2 ^ k →
        l2 ≤ computeL (revBits k (n - 1)) (2 ^ k) (2 ^ k))) := by
  refine ⟨fft_reorder_swaps_eq k, fft_reorder_swaps_nodup k, ?_⟩
  intro n h1 h2
  have hrm : revBits k (n - 1) + 1 < 2 ^ k := by
    have hlt : revBits k (n - 1) < 2 ^ k := revBits_lt k (n - 1)
    have hne : revBits k (n - 1) ≠ 2 ^ k - 1 := by
      intro he
      have hone : 1 ≤ 2 ^ k := Nat.one_le_two_pow
      have h3 : revBits k (revBits k (n - 1)) = n - 1 :=
        revBits_revBits k (n - 1) (by omega)
      rw [he, revBits_all_ones k] at h3
      omega
    omega
  exact computeL_largest k (revBits k (n - 1)) hrm

/-- C7 witness: at `N = 8` the executed swaps are `(1, 4)` and `(3, 6)` (the
pairs with `revBits 3 n > n`, each once), and at `n = 1` (where the running
index is `revBits 3 0 = 0`) the chosen step is a power-of-two divisor `l` of
`8` with `0 + l < 8`. -/
theorem fft_reorder_swap_discipline_witness :
    fft_reorder_swaps 8 = [(1, 4), (3, 6)] ∧
    (1 : ℕ) ≤ 1 ∧ 1 < 2 ^ 3 ∧
    revBits 3 (1 - 1) + computeL (revBits 3 (1 - 1)) (2 ^ 3) (2 ^ 3) < 2 ^ 3 ∧
    (∃ j, computeL (revBits 3 (1 - 1)) (2 ^ 3) (2 ^ 3) = 2 ^ j) :=
  ⟨by
    have h := (fft_reorder_swap_discipline 3).1
    rw [show (2 : ℕ) ^ 3 = 8 from rfl] at h
    rw [h]
    decide,
   by decide, by decide,
   ((fft_reorder_swap_discipline 3).2.2 1 (by decide) (by decide)).2.2.1,
   ((fft_reorder_swap_discipline 3).2.2 1 (by decide) (by decide)).1⟩


/-! ## Q15 roundings of the concrete twiddle values -/

theorem sqrt2_bounds : (46339 : ℝ) < 32768 * Real.sqrt 2 ∧
    32768 * Real.sqrt 2 < 46341 := by
  have h0 : (0 : ℝ) ≤ Real.sqrt 2 := Real.sqrt_nonneg 2
  have hsq : Real.sqrt 2 ^ 2 = 2 := Real.sq_sqrt (by norm_num)
  constructor
  · nlinarith
  · nlinarith

theorem round_q15_sqrt2 : round ((32768 : ℝ) * (Real.sqrt 2 / 2)) = 23170 := by
  obtain ⟨h1, h2⟩ := sqrt2_bounds
  rw [round_eq]
  apply Int.floor_eq_iff.mpr
  constructor
  · push_cast
    linarith
  · push_cast
    linarith

theorem round_q15_neg_sqrt2 :
    round ((32768 : ℝ) * -(Real.sqrt 2 / 2)) = -23170 := by
  obtain ⟨h1, h2⟩ := sqrt2_bounds
  rw [round_eq]
  apply Int.floor_eq_iff.mpr
  constructor
  · push_cast
    linarith
  · push_cast
    linarith

theorem round_q15_one : round ((32768 : ℝ) * 1) = 32768 := by
  rw [mul_one, show (32768 : ℝ) = ((32768 : ℤ) : ℝ) by norm_num, round_intCast]

theorem round_q15_zero : round ((32768 : ℝ) * 0) = 0 := by
  rw [mul_zero, round_zero]

theorem round_q15_neg_one : round ((32768 : ℝ) * (-1)) = -32768 := by
  rw [show (32768 : ℝ) * (-1) = ((-32768 : ℤ) : ℝ) by norm_num, round_intCast]

/-- The table `generate_e_2pi_i` actually builds for `N = 8` is the concrete
`twiddle_table_8`: Q15 roundings of `e^(2*pi*i*k/8)`, positive exponent. -/
theorem generate_e_2pi_i_eight : generate_e_2pi_i 8 = twiddle_table_8 := by
  have hQ : (Q15 : ℝ) = 32768 := by norm_num [Q15]
  have a0 : 2 * Real.pi * ((0 : ℕ) : ℝ) / ((8 : ℕ) : ℝ) = 0 := by
    push_cast
    ring
  have a1 : 2 * Real.pi * ((1 : ℕ) : ℝ) / ((8 : ℕ) : ℝ) = Real.pi / 4 := by
    push_cast
    ring
  have a2 : 2 * Real.pi * ((2 : ℕ) : ℝ) / ((8 : ℕ) : ℝ) = Real.pi / 2 := by
    push_cast
    ring
  have a3 : 2 * Real.pi * ((3 : ℕ) : ℝ) / ((8 : ℕ) : ℝ) = Real.pi - Real.pi / 4 := by
    push_cast
    ring
  have a4 : 2 * Real.pi * ((4 : ℕ) : ℝ) / ((8 : ℕ) : ℝ) = Real.pi := by
    push_cast
    ring
  have a5 : 2 * Real.pi * ((5 : ℕ) : ℝ) / ((8 : ℕ) : ℝ) = Real.pi + Real.pi / 4 := by
    push_cast
    ring
  have a6 : 2 * Real.pi * ((6 : ℕ) : ℝ) / ((8 : ℕ) : ℝ) = Real.pi + Real.pi / 2 := by
    push_cast
    ring
  have a7 : 2 * Real.pi * ((7 : ℕ) : ℝ) / ((8 : ℕ) : ℝ)
      = 2 * Real.pi - Real.pi / 4 := by
    push_cast
    ring
  have hcos5 : Real.cos (Real.pi + Real.pi / 4) = -(Real.sqrt 2 / 2) := by
    rw [Real.cos_add, Real.cos_pi, Real.sin_pi, Real.cos_pi_div_four]
    ring
  have hsin5 : Real.sin (Real.pi + Real.pi / 4) = -(Real.sqrt 2 / 2) := by
    rw [Real.sin_add, Real.sin_pi, Real.cos_pi, Real.sin_pi_div_four]
    ring
  have hcos6 : Real.cos (Real.pi + Real.pi / 2) = 0 := by
    rw [Real.cos_add, Real.cos_pi, Real.sin_pi, Real.cos_pi_div_two]
    ring
  have hsin6 : Real.sin (Real.pi + Real.pi / 2) = -1 := by
    rw [Real.sin_add, Real.sin_pi, Real.cos_pi, Real.sin_pi_div_two]
    ring
  have hcos7 : Real.cos (2 * Real.pi - Real.pi / 4) = Real.sqrt 2 / 2 := by
    rw [Real.cos_sub, Real.cos_two_pi, Real.sin_two_pi, Real.cos_pi_div_four]
    ring
  have hsin7 : Real.sin (2 * Real.pi - Real.pi / 4) = -(Real.sqrt 2 / 2) := by
    rw [Real.sin_sub, Real.sin_two_pi, Real.cos_two_pi, Real.sin_pi_div_four]
    ring
  have hcos3 : Real.cos (Real.pi - Real.pi / 4) = -(Real.sqrt 2 / 2) := by
    rw [Real.cos_pi_sub, Real.cos_pi_div_four]
  have hsin3 : Real.sin (Real.pi - Real.pi / 4) = Real.sqrt 2 / 2 := by
    rw [Real.sin_pi_sub, Real.sin_pi_div_four]
  rw [generate_e_2pi_i, show List.range 8 = [0, 1, 2, 3, 4, 5, 6, 7] from rfl]
  simp only [List.map_cons, List.map_nil, hQ, twiddle_table_8]
  rw [a0, a1, a2, a3, a4, a5, a6, a7, Real.cos_zero, Real.sin_zero,
    hcos3, hsin3, hcos5, hsin5, hcos6, hsin6, hcos7, hsin7,
    Real.cos_pi_div_four, Real.sin_pi_div_four, Real.cos_pi_div_two,
    Real.sin_pi_div_two, Real.cos_pi, Real.sin_pi,
    round_q15_one, round_q15_zero, round_q15_neg_one,
    round_q15_sqrt2, round_q15_neg_sqrt2]


/-! ## Claim C2: the twiddle table -/

/-- C2 counterexample: the table built for `N = 8` is an array of 8 entries,
not `N/2 = 4`; and its entry 1 is the Q15 rounding of `e^(+2*pi*i/8)` — its
imaginary part is `+23170` — whereas the rounding of `e^(-2*pi*i/8)` has
imaginary part `-23170`. -/
theorem generate_e_2pi_i_counterexample :
    (generate_e_2pi_i 8).length = 8 ∧ (8 : ℕ) ≠ 8 / 2 ∧
    ((generate_e_2pi_i 8).getD 1 (0, 0)).2 = 23170 ∧
    round ((Q15 : ℝ) * Real.sin (-(2 * Real.pi * 1 / 8))) = -23170 ∧
    (23170 : ℤ) ≠ -23170 := by
  refine ⟨?_, by norm_num, ?_, ?_, by norm_num⟩
  · rw [generate_e_2pi_i_eight]
    rfl
  · rw [generate_e_2pi_i_eight]
    rfl
  · have hQ : (Q15 : ℝ) = 32768 := by norm_num [Q15]
    have ha : -(2 * Real.pi * 1 / 8) = -(Real.pi / 4) := by ring
    rw [hQ, ha, Real.sin_neg, Real.sin_pi_div_four, round_q15_neg_sqrt2]

/-- C2 amended: the twiddle table built for transform size `N` is an array
of `N` entries (not `N/2`); entry `k` is the componentwise Q15 rounding of
`e^(+2*pi*i*k/N)` (positive exponent, not `e^(-2*pi*i*k/N)`), and it is
computed once per run in `main` before the pipeline starts. -/
theorem generate_e_2pi_i_spec (N k : ℕ) (h : k < N) :
    (generate_e_2pi_i N).length = N ∧
    (generate_e_2pi_i N).getD k (0, 0)
      = (round ((Q15 : ℝ) *
          (Complex.exp (((2 * Real.pi * (k : ℝ) / (N : ℝ) : ℝ) : ℂ) * Complex.I)).re),
         round ((Q15 : ℝ) *
          (Complex.exp (((2 * Real.pi * (k : ℝ) / (N : ℝ) : ℝ) : ℂ) * Complex.I)).im)) := by
  constructor
  · rw [generate_e_2pi_i, List.length_map, List.length_range]
  · rw [Complex.exp_ofReal_mul_I_re, Complex.exp_ofReal_mul_I_im, generate_e_2pi_i,
      List.getD_eq_getElem?_getD, List.getElem?_map, List.getElem?_range h]
    rfl

/-- C2 witness: entry 1 of the table for `N = 4` is the Q15 rounding of
`e^(2*pi*i/4)`, and the table has 4 entries. -/
theorem generate_e_2pi_i_spec_witness :
    (1 : ℕ) < 4 ∧ (generate_e_2pi_i 4).length = 4 ∧
    (generate_e_2pi_i 4).getD 1 (0, 0)
      = (round ((Q15 : ℝ) *
          (Complex.exp (((2 * Real.pi * ((1 : ℕ) : ℝ) / ((4 : ℕ) : ℝ) : ℝ) : ℂ) * Complex.I)).re),
         round ((Q15 : ℝ) *
          (Complex.exp (((2 * Real.pi * ((1 : ℕ) : ℝ) / ((4 : ℕ) : ℝ) : ℝ) : ℂ) * Complex.I)).im)) :=
  ⟨by norm_num, (generate_e_2pi_i_spec 4 1 (by norm_num)).1,
   (generate_e_2pi_i_spec 4 1 (by norm_num)).2⟩


/-! ## Claim C1: the transform is not the DFT -/

theorem cos_two_pi_sub_pi_div_four :
    Real.cos (2 * Real.pi - Real.pi / 4) = Real.sqrt 2 / 2 := by
  rw [Real.cos_sub, Real.cos_two_pi, Real.sin_two_pi, Real.cos_pi_div_four]
  ring

theorem sin_two_pi_sub_pi_div_four :
    Real.sin (2 * Real.pi - Real.pi / 4) = -(Real.sqrt 2 / 2) := by
  rw [Real.sin_sub, Real.sin_two_pi, Real.cos_two_pi, Real.sin_pi_div_four]
  ring

theorem dft_ascending_impulse3_bin1 :
    (dft_ascending impulse8_at_3 8).getD 1 (0, 0) = (23170, 23170) := by
  have h18 : (1 : ℕ) < 8 := by norm_num
  rw [dft_ascending, List.getD_eq_getElem?_getD, List.getElem?_map,
    List.getElem?_range h18, Option.map_some', Option.getD_some]
  have hk : ((1 + 8 / 2) % 8 : ℕ) = 5 := by norm_num
  rw [hk]
  have hX : dft_bin impulse8_at_3 8 5 = Complex.exp
      (((-(2 * Real.pi * ((5 : ℕ) : ℝ) * ((3 : ℕ) : ℝ) / ((8 : ℕ) : ℝ)) : ℝ) : ℂ)
        * Complex.I) := by
    rw [dft_bin]
    rw [Finset.sum_range_succ, Finset.sum_range_succ, Finset.sum_range_succ,
      Finset.sum_range_succ, Finset.sum_range_succ, Finset.sum_range_succ,
      Finset.sum_range_succ, Finset.sum_range_succ, Finset.sum_range_zero]
    norm_num [impulse8_at_3, Q15]
  rw [hX, Complex.exp_ofReal_mul_I_re, Complex.exp_ofReal_mul_I_im]
  have hang : -(2 * Real.pi * ((5 : ℕ) : ℝ) * ((3 : ℕ) : ℝ) / ((8 : ℕ) : ℝ))
      = -((2 * Real.pi - Real.pi / 4) + 2 * Real.pi) := by
    push_cast
    ring
  have hQ : (Q15 : ℝ) = 32768 := by norm_num [Q15]
  rw [hang, Real.cos_neg, Real.sin_neg, Real.cos_add_two_pi, Real.sin_add_two_pi,
    cos_two_pi_sub_pi_div_four, sin_two_pi_sub_pi_div_four, neg_neg, hQ,
    round_q15_sqrt2]

/-- C1 (code bug): at `N = 8`, on the impulse of amplitude 1.0 (raw 32768)
at index 3 and with the twiddle table `main` generates for `N = 8`, the
programme's `fft` produces bins that differ grossly from the rounded DFT in
ascending-frequency order: the full output is listed below, and its bin 1 is
`(0, -32766)` where the DFT bin 1 is `(23170, 23170)` — a discrepancy of
more than half the Q15 scale in both components, far beyond rounding. The
root cause is the butterfly's twiddle index `e[j]` (src/fft.hpp line 88),
which is not rescaled by `N / m` for the inner stages. -/
theorem fft_impulse3_differs_from_dft :
    fft impulse8_at_3 (generate_e_2pi_i 8) 8
      = [(-32768, 0), (0, -32766), (0, 32768), (-32767, 1),
         (32768, 0), (0, 32766), (0, -32768), (32767, -1)] ∧
    (dft_ascending impulse8_at_3 8).getD 1 (0, 0) = (23170, 23170) ∧
    (fft impulse8_at_3 (generate_e_2pi_i 8) 8).getD 1 (0, 0) = (0, -32766) ∧
    (((0 : ℤ), (-32766 : ℤ)) : Cq) ≠ ((23170 : ℤ), (23170 : ℤ)) := by
  have hfft : fft impulse8_at_3 (generate_e_2pi_i 8) 8
      = [(-32768, 0), (0, -32766), (0, 32768), (-32767, 1),
         (32768, 0), (0, 32766), (0, -32768), (32767, -1)] := by
    rw [generate_e_2pi_i_eight]
    decide
  refine ⟨hfft, dft_ascending_impulse3_bin1, ?_, by decide⟩
  rw [hfft]
  rfl

theorem ilog2Fuel_eq_log2 (fuel n : ℕ) (h : n ≤ fuel) :
    ilog2Fuel fuel n = Nat.log2 n := by
  induction fuel generalizing n with
  | zero =>
      have hn : n = 0 := by omega
      subst hn
      rw [Nat.log2]
      rfl
  | succ f ih =>
      show (if n ≥ 2 then ilog2Fuel f (n / 2) + 1 else 0) = Nat.log2 n
      rw [Nat.log2]
      by_cases h2 : n ≥ 2
      · rw [if_pos h2, if_pos h2, ih (n / 2) (by omega)]
      · rw [if_neg h2, if_neg h2]

theorem ilog2_eq_log2 (n : ℕ) : ilog2 n = Nat.log2 n :=
  ilog2Fuel_eq_log2 n n (le_refl n)

end RtlSdrFft
